import Mathlib

/-!
Verification of the PageRank estimators of `pagerank.py`.

The source is shallowly embedded: Python dicts become insertion-ordered
association lists, floats become rationals, the `random` module becomes an
explicit entropy stream, and the unbounded `while True` loop becomes a
fuel-indexed loop where exhausted fuel (`none`) means the source loop is
still running.
-/

namespace Pagerank

/-- Page identifiers are the corpus file names. -/
abbrev Page := String

/-- The corpus graph built by `crawl`: an insertion-ordered mapping from a
page to its out-set (a Python dict from page name to a set of page names). -/
abbrev Corpus := List (Page × List Page)

/-- A rank or probability table: insertion-ordered mapping from page to a
rational weight. -/
abbrev RankVec := List (Page × ℚ)

/-- Keys of a Python dict modelled as an association list, in insertion order. -/
def keys {α : Type} (l : List (Page × α)) : List Page := l.map Prod.fst

/-- Dict lookup `corpus[page]` on the corpus: `none` models a KeyError. -/
def lookupOut (corpus : Corpus) (page : Page) : Option (List Page) :=
  (corpus.find? (fun e => e.1 == page)).map Prod.snd

/-- Dict lookup `d[p]` on a rank table; every use in the source hits an
existing key, so the 0 default is never observed under the stated invariants. -/
def dictGet (r : RankVec) (p : Page) : ℚ :=
  match r.find? (fun e => e.1 == p) with
  | some e => e.2
  | none => 0

/-- Dict assignment `d[p] = v` on an existing key. -/
def dictSet (r : RankVec) (p : Page) (v : ℚ) : RankVec :=
  r.map (fun e => if e.1 = p then (e.1, v) else e)

/-- Dict update `d[p] += 1` on an existing key. -/
def dictIncr (r : RankVec) (p : Page) : RankVec :=
  r.map (fun e => if e.1 = p then (e.1, e.2 + 1) else e)

/-- Sum of the values of a rank table. -/
def sumVals (r : RankVec) : ℚ := (r.map Prod.snd).sum

/-- Weight that `transition_model` assigns to page `p`: the body of the
`for p in corpus` loop at source lines 62-75. Start from `(1-d)/N`, add
`d/len(out)` once for each element of `out` equal to `p` (lines 67-69), and
add `d/N` when `out` is empty (lines 72-73). -/
def transitionWeight (N : ℕ) (out : List Page) (d : ℚ) (p : Page) : ℚ :=
  (out.foldl (fun acc i => if p = i then acc + d / (out.length : ℚ) else acc)
    ((1 - d) / (N : ℚ)))
  + (if out.length = 0 then d / (N : ℚ) else 0)

/-- Source `transition_model(corpus, page, damping_factor)` (lines 51-77);
`none` models the KeyError raised by `corpus[page]` when `page` is not a key. -/
def transition_model (corpus : Corpus) (page : Page) (d : ℚ) : Option RankVec :=
  (lookupOut corpus page).map (fun out =>
    corpus.map (fun e => (e.1, transitionWeight corpus.length out d e.1)))

/-- Number of iterations of Python `range(n)` for an integer argument. -/
def pyRange (n : ℤ) : ℕ := n.toNat

/-- A draw from a non-empty list of candidates. The random sources
(`random.choice` line 96, `random.choices` line 108) are modelled by an
arbitrary entropy stream of naturals; a draw with entropy `k` picks index
`k % length`. Under a damping factor in (0,1) every candidate has positive
weight, so this captures every possible outcome of the weighted draw, and the
properties proved below depend only on which pages are drawable. -/
def pickChoice (l : List Page) (k : ℕ) : Page := l.getD (k % l.length) ""

/-- The sampling loop of `sample_pagerank` (lines 98-109): `m` iterations
remain, `step` indexes the entropy stream, `currentPage` and the counter
table `result` are the mutable loop state. -/
def sampleLoop (corpus : Corpus) (d : ℚ) (σ : ℕ → ℕ) :
    ℕ → ℕ → Page → RankVec → RankVec
  | 0, _, _, result => result
  | m + 1, step, currentPage, result =>
    let result1 := dictIncr result currentPage
    let moves := (transition_model corpus currentPage d).getD []
    let nextPage := pickChoice (keys moves) (σ step)
    sampleLoop corpus d σ m (step + 1) nextPage result1

/-- Source `sample_pagerank(corpus, damping_factor, n)` (lines 80-114), with
the random module modelled by the entropy stream `σ`. -/
def sample_pagerank (corpus : Corpus) (d : ℚ) (n : ℤ) (σ : ℕ → ℕ) : RankVec :=
  let result := corpus.map (fun e => (e.1, (0 : ℚ)))
  let currentPage := pickChoice (keys corpus) (σ 0)
  let counts := sampleLoop corpus d σ (pyRange n) 1 currentPage result
  counts.map (fun e => (e.1, e.2 / (n : ℚ)))

/-- Python `abs` on an integer. -/
def pyAbs (n : ℤ) : ℤ := |n|

/-- Python bool-to-int coercion (`abs(True) = 1`, `abs(False) = 0`). -/
def pyBoolToInt (b : Bool) : ℤ := if b then 1 else 0

/-- Line 146 of the source, `abs(previous_Iteration[i] - current_Iteration <= 0.001)`,
under Python semantics: `<=` binds tighter than the function call's argument,
so `abs` is applied to a boolean, and the enclosing `if` then tests the
resulting integer for non-zeroness. -/
def convCheck (prev curr : ℚ) : Bool :=
  pyAbs (pyBoolToInt (decide (prev - curr ≤ 1 / 1000))) != 0

/-- Lines 136-141: `sum_Iteration`, the incoming-link sum for page `i`, read
from the current state of the rank dict. -/
def sumIteration (corpus : Corpus) (ranks : RankVec) (i : Page) : ℚ :=
  corpus.foldl
    (fun acc e =>
      if i ∈ e.2 then acc + dictGet ranks e.1 / (e.2.length : ℚ) else acc) 0

/-- Lines 135-143: `current_Iteration` for page `i`. -/
def currentIteration (corpus : Corpus) (d : ℚ) (ranks : RankVec) (i : Page) : ℚ :=
  (1 - d) / (corpus.length : ℚ) + d * sumIteration corpus ranks i

/-- One step of the `for i in corpus` loop (lines 134-149): compute
`current_Iteration` from the current dict state, bump the convergence counter
when line 146's test is truthy, then write the new value in place (line 149). -/
def passStep (corpus : Corpus) (d : ℚ) (st : ℕ × RankVec) (i : Page) : ℕ × RankVec :=
  let curr := currentIteration corpus d st.2 i
  let chk := if convCheck (dictGet st.2 i) curr then st.1 + 1 else st.1
  (chk, dictSet st.2 i curr)

/-- One full pass of the `while True` body (lines 132-149): `check` starts at
0 and the pages are visited in key order, mutating the rank dict in place. -/
def iteratePass (corpus : Corpus) (d : ℚ) (ranks : RankVec) : ℕ × RankVec :=
  (keys corpus).foldl (passStep corpus d) (0, ranks)

/-- Lines 154-156: divide every entry by the sum of all entries. -/
def normalizeRanks (r : RankVec) : RankVec :=
  r.map (fun e => (e.1, e.2 / sumVals r))

/-- The `while True` loop (lines 131-158), run for at most `fuel` passes. The
source loop has no iteration cap, so `none` means the loop is still running
after `fuel` passes (it is not an error exit of the source, which has none);
the only way the source ever returns is the convergence branch at line 152. -/
def iterateLoop (corpus : Corpus) (d : ℚ) : ℕ → RankVec → Option RankVec
  | 0, _ => none
  | fuel + 1, ranks =>
    let st := iteratePass corpus d ranks
    if st.1 = corpus.length then some (normalizeRanks st.2)
    else iterateLoop corpus d fuel st.2

/-- The rank dict as initialised at lines 127-129: every page starts at `1/N`. -/
def initRanks (corpus : Corpus) : RankVec :=
  corpus.map (fun e => (e.1, 1 / (corpus.length : ℚ)))

/-- Source `iterate_pagerank(corpus, damping_factor)` (lines 117-158), run for
at most `fuel` passes of its unbounded loop. -/
def iterate_pagerank (corpus : Corpus) (d : ℚ) (fuel : ℕ) : Option RankVec :=
  iterateLoop corpus d fuel (initRanks corpus)

/-- Running `iterate_pagerank` in a process whose random module holds the
entropy stream `σ`: the body of `iterate_pagerank` (lines 117-158) contains no
call into the random module, so the stream is never read. -/
def iterate_pagerank_run (corpus : Corpus) (d : ℚ) (fuel : ℕ) (_σ : ℕ → ℕ) :
    Option RankVec :=
  iterate_pagerank corpus d fuel

/-- Division that records a division by zero instead of using Lean's total `/`. -/
def qdivChecked (a : ℚ) (n : ℕ) : Option ℚ :=
  if n = 0 then none else some (a / (n : ℚ))

/-- The inner `for i in corpus[page]` loop of `transition_model` (lines 67-69)
with its division site checked; `rest` is the remaining part of `out`. -/
def linkFoldChecked (out : List Page) (d : ℚ) (p : Page) :
    ℚ → List Page → Option ℚ
  | acc, [] => some acc
  | acc, i :: rest =>
    if p = i then
      match qdivChecked d out.length with
      | none => none
      | some q => linkFoldChecked out d p (acc + q) rest
    else linkFoldChecked out d p acc rest

/-- `transitionWeight` with every division site checked. -/
def transitionWeightChecked (N : ℕ) (out : List Page) (d : ℚ) (p : Page) :
    Option ℚ :=
  (qdivChecked (1 - d) N).bind (fun base =>
    (linkFoldChecked out d p base out).bind (fun linked =>
      if out.length = 0 then (qdivChecked d N).map (fun q => linked + q)
      else some linked))

/-- Option-valued map over a list, failing as soon as one element fails. -/
def mapOpt {α β : Type} (f : α → Option β) : List α → Option (List β)
  | [] => some []
  | a :: t => (f a).bind (fun b => (mapOpt f t).map (fun r => b :: r))

/-- Source `transition_model` with the dict lookup and every division site
checked: `none` exactly when a KeyError or a division by zero would occur. -/
def transition_model_checked (corpus : Corpus) (page : Page) (d : ℚ) :
    Option RankVec :=
  (lookupOut corpus page).bind (fun out =>
    mapOpt
      (fun e => (transitionWeightChecked corpus.length out d e.1).map
        (fun w => (e.1, w)))
      corpus)

/-- Following the spec's words for the iterative update's incoming sum
(step 2a of the iterative estimator): a page with an empty out-set
contributes `rank(p) / N` to every page's sum, not zero. Stated only to be
compared against the source's `sumIteration`. -/
def spec_linkSum (corpus : Corpus) (ranks : RankVec) (i : Page) : ℚ :=
  corpus.foldl
    (fun acc e =>
      if e.2 = [] then acc + dictGet ranks e.1 / (corpus.length : ℚ)
      else if i ∈ e.2 then acc + dictGet ranks e.1 / (e.2.length : ℚ)
      else acc) 0

/-- Default damping factor (line 6 of the source). -/
def DAMPING : ℚ := 85 / 100

/-- Default sample count (line 7 of the source). -/
def SAMPLES : ℤ := 10000

/-- Single-page corpus of the degenerate-sink scenario. -/
def oneCorpus : Corpus := [("a", [])]

/-- Two-page corpus where page a is a sink and page b links to a. -/
def sinkCorpus : Corpus := [("a", []), ("b", ["a"])]

/-- Three-page corpus: a and b link to each other, and c links to b. -/
def c1Corpus : Corpus := [("a", ["b"]), ("b", ["a"]), ("c", ["b"])]

/-- The rank dict after the first pass of the iterative loop on `c1Corpus`. -/
def c1V1 : RankVec := (iteratePass c1Corpus DAMPING (initRanks c1Corpus)).2

/-- The test at line 146 is truthy exactly when the signed difference
`previous - current` is at most the threshold; the absolute value is applied
to the boolean, not to the difference. -/
theorem convCheck_eq_signed (prev curr : ℚ) :
    convCheck prev curr = decide (prev - curr ≤ 1 / 1000) := by
  by_cases h : prev - curr ≤ 1 / 1000
  · have hd : decide (prev - curr ≤ 1 / 1000) = true := decide_eq_true h
    simp only [convCheck, pyAbs, pyBoolToInt, hd]
    decide
  · have hd : decide (prev - curr ≤ 1 / 1000) = false := decide_eq_false h
    simp only [convCheck, pyAbs, pyBoolToInt, hd]
    decide

/-- Initial ranks on the three-page corpus. -/
theorem initRanks_c1 : initRanks c1Corpus = [("a", 1 / 3), ("b", 1 / 3), ("c", 1 / 3)] := by
  simp [initRanks, c1Corpus]

/-- First pass of the loop on the three-page corpus: page a keeps rank 1/3 and
is counted, page b jumps to 37/60 and is nevertheless counted by line 146's
test, page c drops to 1/20 and is not counted. -/
theorem iteratePass_c1_first :
    iteratePass c1Corpus DAMPING (initRanks c1Corpus)
      = (2, [("a", 1 / 3), ("b", 37 / 60), ("c", 1 / 20)]) := by
  have s1 : passStep c1Corpus DAMPING (0, [("a", 1 / 3), ("b", 1 / 3), ("c", 1 / 3)]) "a"
      = (1, [("a", 1 / 3), ("b", 1 / 3), ("c", 1 / 3)]) := by
    simp [passStep, currentIteration, sumIteration, dictGet, dictSet, convCheck,
      pyAbs, pyBoolToInt, c1Corpus, DAMPING, List.find?]
    norm_num
  have s2 : passStep c1Corpus DAMPING (1, [("a", 1 / 3), ("b", 1 / 3), ("c", 1 / 3)]) "b"
      = (2, [("a", 1 / 3), ("b", 37 / 60), ("c", 1 / 3)]) := by
    simp [passStep, currentIteration, sumIteration, dictGet, dictSet, convCheck,
      pyAbs, pyBoolToInt, c1Corpus, DAMPING, List.find?]
    norm_num
  have s3 : passStep c1Corpus DAMPING (2, [("a", 1 / 3), ("b", 37 / 60), ("c", 1 / 3)]) "c"
      = (2, [("a", 1 / 3), ("b", 37 / 60), ("c", 1 / 20)]) := by
    simp [passStep, currentIteration, sumIteration, dictGet, dictSet, convCheck,
      pyAbs, pyBoolToInt, c1Corpus, DAMPING, List.find?]
    norm_num
  rw [iteratePass, initRanks_c1]
  show List.foldl _ _ ["a", "b", "c"] = _
  rw [List.foldl_cons, s1, List.foldl_cons, s2, List.foldl_cons, s3, List.foldl_nil]

/-- The pass-1 snapshot on the three-page corpus, evaluated. -/
theorem c1V1_eq : c1V1 = [("a", 1 / 3), ("b", 37 / 60), ("c", 1 / 20)] := by
  rw [c1V1, iteratePass_c1_first]

/-- C1. The claim says the stopping test is `abs(previous[i] - current[i]) <= 0.001`
per page. On `c1Corpus` at the first pass, page b's rank moves from 1/3 to
37/60 (it grows by 17/60 > 0.001), yet line 146's test is truthy for it and the
pass counts 2 satisfied pages (a and b) instead of the 1 (only a) that the
per-page absolute test would count: the code tests the signed difference. -/
theorem convergence_check_is_signed_eval :
    (iteratePass c1Corpus DAMPING (initRanks c1Corpus)).1 = 2 ∧
    dictGet (iteratePass c1Corpus DAMPING (initRanks c1Corpus)).2 "b" = 37 / 60 ∧
    convCheck (1 / 3) (37 / 60) = true ∧
    ¬ (|(1 / 3 : ℚ) - 37 / 60| ≤ 1 / 1000) := by
  refine ⟨by rw [iteratePass_c1_first], ?_, ?_, ?_⟩
  · rw [iteratePass_c1_first]
    simp [dictGet, List.find?]
  · rw [convCheck_eq_signed]
    simp only [decide_eq_true_eq]
    norm_num
  · rw [abs_le]
    push_neg
    intro h
    norm_num at h ⊢

/-- C2. The claim says a sink page p contributes `rank(p)/N` to every page's
incoming sum. On `sinkCorpus` (a is a sink, b links to a) at the initial ranks
(both 1/2), the code's incoming sum for page b is 0 — the sink contributes
nothing, because `if i in corpus[p]` is false for an empty out-set — while the
spec's sum is `rank(a)/N = 1/4`; accordingly the code computes
`newRank(b) = 3/40` instead of the spec's `3/40 + (85/100)·(1/4)`. -/
theorem sink_contribution_zero_eval :
    sumIteration sinkCorpus (initRanks sinkCorpus) "b" = 0 ∧
    spec_linkSum sinkCorpus (initRanks sinkCorpus) "b" = 1 / 4 ∧
    currentIteration sinkCorpus DAMPING (initRanks sinkCorpus) "b" = 3 / 40 ∧
    ((3 / 40 : ℚ) ≠ 3 / 40 + (85 / 100) * (1 / 4)) := by
  refine ⟨?_, ?_, ?_, by norm_num⟩
  · simp [sumIteration, dictGet, sinkCorpus, initRanks, List.find?]
  · simp [spec_linkSum, dictGet, sinkCorpus, initRanks, List.find?]
    norm_num
  · simp [currentIteration, sumIteration, dictGet, sinkCorpus, initRanks, DAMPING,
      List.find?]
    norm_num

/-- Second pass of the loop on the three-page corpus: page b's value is
computed after page a's new value has already been written in place. -/
theorem iteratePass_c1_second :
    iteratePass c1Corpus DAMPING [("a", 1 / 3), ("b", 37 / 60), ("c", 1 / 20)]
      = (2, [("a", 689 / 1200), ("b", 13933 / 24000), ("c", 1 / 20)]) := by
  have s1 : passStep c1Corpus DAMPING (0, [("a", 1 / 3), ("b", 37 / 60), ("c", 1 / 20)]) "a"
      = (1, [("a", 689 / 1200), ("b", 37 / 60), ("c", 1 / 20)]) := by
    simp [passStep, currentIteration, sumIteration, dictGet, dictSet, convCheck,
      pyAbs, pyBoolToInt, c1Corpus, DAMPING, List.find?]
    norm_num
  have s2 : passStep c1Corpus DAMPING (1, [("a", 689 / 1200), ("b", 37 / 60), ("c", 1 / 20)]) "b"
      = (1, [("a", 689 / 1200), ("b", 13933 / 24000), ("c", 1 / 20)]) := by
    simp [passStep, currentIteration, sumIteration, dictGet, dictSet, convCheck,
      pyAbs, pyBoolToInt, c1Corpus, DAMPING, List.find?]
    norm_num
  have s3 : passStep c1Corpus DAMPING
      (1, [("a", 689 / 1200), ("b", 13933 / 24000), ("c", 1 / 20)]) "c"
      = (2, [("a", 689 / 1200), ("b", 13933 / 24000), ("c", 1 / 20)]) := by
    simp [passStep, currentIteration, sumIteration, dictGet, dictSet, convCheck,
      pyAbs, pyBoolToInt, c1Corpus, DAMPING, List.find?]
    norm_num
  rw [iteratePass]
  show List.foldl _ _ ["a", "b", "c"] = _
  rw [List.foldl_cons, s1, List.foldl_cons, s2, List.foldl_cons, s3, List.foldl_nil]

/-- C3. The claim says every pass computes all new ranks from the previous
pass's snapshot. On `c1Corpus` in the second pass, the code writes page a's
new value in place (line 149) before computing page b, so page b's new value
is 13933/24000, whereas the value computed from the pass-1 snapshot `c1V1`
is 451/1200: the update is in place, not synchronous. -/
theorem inplace_update_not_synchronous_eval :
    dictGet (iteratePass c1Corpus DAMPING c1V1).2 "b" = 13933 / 24000 ∧
    currentIteration c1Corpus DAMPING c1V1 "b" = 451 / 1200 ∧
    ((13933 / 24000 : ℚ) ≠ 451 / 1200) := by
  refine ⟨?_, ?_, by norm_num⟩
  · rw [c1V1_eq, iteratePass_c1_second]
    simp [dictGet, List.find?]
  · rw [c1V1_eq]
    simp [currentIteration, sumIteration, dictGet, c1Corpus, DAMPING, List.find?]
    norm_num

/-- One pass of the loop on the single-page corpus from the initial rank 1:
the rank drops to 3/20 and line 146's test fails for it. -/
theorem iteratePass_one_first :
    iteratePass oneCorpus DAMPING [("a", 1)] = (0, [("a", 3 / 20)]) := by
  have s1 : passStep oneCorpus DAMPING (0, [("a", 1)]) "a" = (0, [("a", 3 / 20)]) := by
    simp [passStep, currentIteration, sumIteration, dictGet, dictSet, convCheck,
      pyAbs, pyBoolToInt, oneCorpus, DAMPING, List.find?]
    norm_num
  rw [iteratePass]
  show List.foldl _ _ ["a"] = _
  rw [List.foldl_cons, s1, List.foldl_nil]

/-- One pass of the loop on the single-page corpus from rank 3/20: the rank is
unchanged, the check counts it, and the loop is ready to return. -/
theorem iteratePass_one_second :
    iteratePass oneCorpus DAMPING [("a", 3 / 20)] = (1, [("a", 3 / 20)]) := by
  have s1 : passStep oneCorpus DAMPING (0, [("a", 3 / 20)]) "a" = (1, [("a", 3 / 20)]) := by
    simp [passStep, currentIteration, sumIteration, dictGet, dictSet, convCheck,
      pyAbs, pyBoolToInt, oneCorpus, DAMPING, List.find?]
    norm_num
  rw [iteratePass]
  show List.foldl _ _ ["a"] = _
  rw [List.foldl_cons, s1, List.foldl_nil]

/-- Initial ranks on the single-page corpus. -/
theorem initRanks_one : initRanks oneCorpus = [("a", 1)] := by
  simp [initRanks, oneCorpus]

/-- Unfolding of one round of the `while True` loop on the single-page corpus. -/
theorem iterateLoop_one_step (d : ℚ) (fuel : ℕ) (r : RankVec) :
    iterateLoop oneCorpus d (fuel + 1) r
      = (if (iteratePass oneCorpus d r).1 = 1 then
          some (normalizeRanks (iteratePass oneCorpus d r).2)
        else iterateLoop oneCorpus d fuel (iteratePass oneCorpus d r).2) := rfl

/-- C5. The claim says the iterative estimator caps its iteration count and
signals an internal error on exceeding the cap. The source loop (line 131) is
`while True` with no iteration counter: modelling it with an explicit pass
budget, exhausting the budget leaves the loop still running (`none` — the
source has no error exit), and the only way it ever returns is the convergence
branch, as on the single-page corpus at the second pass. -/
theorem no_iteration_cap_eval :
    iterate_pagerank oneCorpus DAMPING 1 = none ∧
    iterate_pagerank oneCorpus DAMPING 2 = some [("a", 1)] := by
  constructor
  · rw [iterate_pagerank, initRanks_one]
    rw [show (1 : ℕ) = 0 + 1 from rfl, iterateLoop_one_step, iteratePass_one_first]
    norm_num
    rfl
  · rw [iterate_pagerank, initRanks_one]
    rw [show (2 : ℕ) = 1 + 1 from rfl, iterateLoop_one_step, iteratePass_one_first]
    norm_num
    rw [show (1 : ℕ) = 0 + 1 from rfl, iterateLoop_one_step, iteratePass_one_second]
    norm_num
    simp [normalizeRanks, sumVals]

/-- C7. The claim says the estimators reject a damping factor outside (0,1) or
a sample count ≤ 0 at entry. The source validates nothing: with sample count
-5 the sampler runs to completion and returns the all-zero table, and with
damping factor 3/2 the iterative estimator runs and returns a result. -/
theorem no_entry_validation_eval :
    sample_pagerank sinkCorpus DAMPING (-5) (fun _ => 0) = [("a", 0), ("b", 0)] ∧
    iterate_pagerank oneCorpus (3 / 2) 2 = some [("a", 1)] := by
  constructor
  · have hr : pyRange (-5) = 0 := rfl
    rw [sample_pagerank, hr]
    rw [show sampleLoop sinkCorpus DAMPING (fun _ => 0) 0
        = fun _ p r => r from rfl]
    simp [sinkCorpus]
  · have p1 : passStep oneCorpus (3 / 2) (0, [("a", 1)]) "a" = (0, [("a", -(1 / 2))]) := by
      simp [passStep, currentIteration, sumIteration, dictGet, dictSet, convCheck,
        pyAbs, pyBoolToInt, oneCorpus, List.find?]
      norm_num
    have p2 : passStep oneCorpus (3 / 2) (0, [("a", -(1 / 2))]) "a"
        = (1, [("a", -(1 / 2))]) := by
      simp [passStep, currentIteration, sumIteration, dictGet, dictSet, convCheck,
        pyAbs, pyBoolToInt, oneCorpus, List.find?]
      norm_num
    have q1 : iteratePass oneCorpus (3 / 2) [("a", 1)] = (0, [("a", -(1 / 2))]) := by
      rw [iteratePass]
      show List.foldl _ _ ["a"] = _
      rw [List.foldl_cons, p1, List.foldl_nil]
    have q2 : iteratePass oneCorpus (3 / 2) [("a", -(1 / 2))] = (1, [("a", -(1 / 2))]) := by
      rw [iteratePass]
      show List.foldl _ _ ["a"] = _
      rw [List.foldl_cons, p2, List.foldl_nil]
    rw [iterate_pagerank, initRanks_one]
    rw [show (2 : ℕ) = 1 + 1 from rfl, iterateLoop_one_step, q1]
    norm_num
    rw [show (1 : ℕ) = 0 + 1 from rfl, iterateLoop_one_step, q2]
    norm_num
    simp [normalizeRanks, sumVals]

/-- C8. The iterative estimator is deterministic: its body never reads the
process's random stream, so two runs with the same corpus, damping factor and
pass budget under arbitrary random streams return identical outputs. -/
theorem iterate_pagerank_deterministic :
    ∀ (corpus : Corpus) (d : ℚ) (fuel : ℕ) (σ₁ σ₂ : ℕ → ℕ),
      iterate_pagerank_run corpus d fuel σ₁ = iterate_pagerank_run corpus d fuel σ₂ :=
  fun _ _ _ _ _ => rfl

/-- Candidate pages offered by the transition model on the single-page corpus. -/
theorem moves_keys_one :
    keys ((transition_model oneCorpus "a" DAMPING).getD []) = ["a"] := by
  simp [transition_model, lookupOut, oneCorpus, keys, List.find?]

/-- Any draw from the one-element candidate list picks the only page. -/
theorem pickChoice_single (k : ℕ) : pickChoice ["a"] k = "a" := by
  simp [pickChoice, Nat.mod_one, List.getD]

/-- On the single-page corpus every iteration of the sampling loop increments
the only page's counter, whatever the entropy stream does. -/
theorem sampleLoop_one (σ : ℕ → ℕ) :
    ∀ (m step : ℕ) (c : ℚ),
      sampleLoop oneCorpus DAMPING σ m step "a" [("a", c)] = [("a", c + m)] := by
  intro m
  induction m with
  | zero => intro step c; simp [sampleLoop]
  | succ m ih =>
    intro step c
    rw [sampleLoop]
    have hincr : dictIncr [("a", c)] "a" = [("a", c + 1)] := by simp [dictIncr]
    rw [moves_keys_one, pickChoice_single, hincr, ih]
    push_cast
    ring_nf

/-- C9. On the single-page corpus with the default parameters, the sampler
returns rank 1 for the page whatever the random stream does, and the iterative
estimator returns rank 1 under any pass budget of at least two. -/
theorem single_page_both_estimators :
    (∀ σ : ℕ → ℕ, sample_pagerank oneCorpus DAMPING SAMPLES σ = [("a", 1)]) ∧
    (∀ k : ℕ, iterate_pagerank oneCorpus DAMPING (k + 2) = some [("a", 1)]) := by
  constructor
  · intro σ
    simp only [sample_pagerank]
    have h0 : oneCorpus.map (fun e => (e.1, (0 : ℚ))) = [("a", 0)] := by
      simp [oneCorpus]
    have hp : pickChoice (keys oneCorpus) (σ 0) = "a" := by
      rw [show keys oneCorpus = ["a"] from rfl]
      exact pickChoice_single _
    have hr : pyRange SAMPLES = 10000 := rfl
    rw [h0, hp, hr, sampleLoop_one σ 10000 1 0]
    norm_num [SAMPLES]
  · intro k
    rw [iterate_pagerank, initRanks_one]
    rw [show k + 2 = (k + 1) + 1 from rfl, iterateLoop_one_step, iteratePass_one_first]
    norm_num
    rw [iterateLoop_one_step, iteratePass_one_second]
    norm_num
    simp [normalizeRanks, sumVals]

/-- Keys of a cons cell of an association list. -/
theorem keys_cons {α : Type} (e : Page × α) (t : List (Page × α)) :
    keys (e :: t) = e.1 :: keys t := rfl

/-- Value sum of a cons cell of a rank table. -/
theorem sumVals_cons (e : Page × ℚ) (t : RankVec) : sumVals (e :: t) = e.2 + sumVals t := by
  simp [sumVals]

/-- Unfolding of the in-place increment on a cons cell. -/
theorem dictIncr_cons (e : Page × ℚ) (t : RankVec) (p : Page) :
    dictIncr (e :: t) p = (if e.1 = p then (e.1, e.2 + 1) else e) :: dictIncr t p := rfl

/-- Incrementing an absent key leaves the table unchanged. -/
theorem dictIncr_not_mem (p : Page) :
    ∀ (r : RankVec), p ∉ keys r → dictIncr r p = r := by
  intro r
  induction r with
  | nil => intro _; rfl
  | cons e t ih =>
    intro h
    rw [keys_cons, List.mem_cons, not_or] at h
    have ht := ih h.2
    rw [dictIncr_cons, ht, if_neg (fun hh => h.1 hh.symm)]

/-- Incrementing a key keeps the key list unchanged. -/
theorem keys_dictIncr (p : Page) : ∀ (r : RankVec), keys (dictIncr r p) = keys r := by
  intro r
  induction r with
  | nil => rfl
  | cons e t ih =>
    rw [dictIncr_cons, keys_cons, keys_cons, ih]
    congr 1
    by_cases he : e.1 = p <;> simp [he]

/-- Incrementing a present key adds exactly one to the value sum when the key
list has no duplicates. -/
theorem sumVals_dictIncr (p : Page) :
    ∀ (r : RankVec), p ∈ keys r → (keys r).Nodup →
      sumVals (dictIncr r p) = sumVals r + 1 := by
  intro r
  induction r with
  | nil => intro h _; simp [keys] at h
  | cons e t ih =>
    intro hmem hnd
    rw [keys_cons, List.nodup_cons] at hnd
    rw [dictIncr_cons, sumVals_cons, sumVals_cons]
    by_cases he : e.1 = p
    · rw [dictIncr_not_mem p t (he ▸ hnd.1), if_pos he]
      show e.2 + 1 + sumVals t = e.2 + sumVals t + 1
      ring
    · have hpt : p ∈ keys t := by
        rw [keys_cons, List.mem_cons] at hmem
        rcases hmem with h1 | h2
        · exact absurd h1.symm he
        · exact h2
      rw [if_neg he, ih hpt hnd.2]
      ring

/-- A present key has a successful out-set lookup. -/
theorem lookupOut_of_mem (page : Page) :
    ∀ (g : Corpus), page ∈ keys g → ∃ out, lookupOut g page = some out := by
  intro g
  induction g with
  | nil => intro h; simp [keys] at h
  | cons e t ih =>
    intro h
    by_cases he : e.1 = page
    · exact ⟨e.2, by simp [lookupOut, List.find?, he]⟩
    · rw [show keys (e :: t) = e.1 :: keys t from rfl, List.mem_cons] at h
      have hpt : page ∈ keys t := by
        rcases h with h1 | h2
        · exact absurd h1.symm he
        · exact h2
      obtain ⟨out, ho⟩ := ih hpt
      refine ⟨out, ?_⟩
      rw [lookupOut, List.find?_cons_of_neg, ← lookupOut]
      · exact ho
      · simp [he]

/-- Mapping the values of a table keeps the key list unchanged. -/
theorem keys_map_snd {α β : Type} (l : List (Page × α)) (f : Page × α → β) :
    keys (l.map (fun e => (e.1, f e))) = keys l := by
  induction l with
  | nil => rfl
  | cons e t ih => simp only [List.map_cons, keys, List.map] at ih ⊢; rw [ih]

/-- The transition model's support is the whole corpus: the pages the sampler
can draw at line 108 are exactly the corpus keys. -/
theorem moves_keys (g : Corpus) (page : Page) (d : ℚ) (h : page ∈ keys g) :
    keys ((transition_model g page d).getD []) = keys g := by
  obtain ⟨out, ho⟩ := lookupOut_of_mem page g h
  rw [transition_model, ho, Option.map_some', Option.getD_some]
  exact keys_map_snd g _

/-- Any draw from a non-empty candidate list picks a candidate. -/
theorem pickChoice_mem (l : List Page) (h : l ≠ []) (k : ℕ) : pickChoice l k ∈ l := by
  have hl : 0 < l.length := List.length_pos.mpr h
  have hk : k % l.length < l.length := Nat.mod_lt _ hl
  rw [pickChoice, List.getD_eq_getElem _ _ hk]
  exact List.getElem_mem hk

/-- Every iteration of the sampling loop adds exactly one to the counter sum:
the loop state always holds a page of the corpus and the counter table is
keyed by the corpus. -/
theorem sampleLoop_sum (g : Corpus) (d : ℚ) (σ : ℕ → ℕ) (hnd : (keys g).Nodup) :
    ∀ (m step : ℕ) (page : Page) (r : RankVec), page ∈ keys g → keys r = keys g →
      sumVals (sampleLoop g d σ m step page r) = sumVals r + m := by
  intro m
  induction m with
  | zero => intro step page r _ _; simp [sampleLoop]
  | succ m ih =>
    intro step page r hp hk
    rw [sampleLoop]
    have h1 : sumVals (dictIncr r page) = sumVals r + 1 :=
      sumVals_dictIncr page r (by rw [hk]; exact hp) (by rw [hk]; exact hnd)
    have h2 : keys (dictIncr r page) = keys g := by rw [keys_dictIncr, hk]
    have h3 : pickChoice (keys ((transition_model g page d).getD [])) (σ step) ∈ keys g := by
      rw [moves_keys g page d hp]
      exact pickChoice_mem _ (List.ne_nil_of_mem hp) _
    rw [ih (step + 1) _ _ h3 h2, h1]
    push_cast
    ring

/-- The all-zero counter table sums to zero. -/
theorem sumVals_zeros : ∀ (g : Corpus), sumVals (g.map (fun e => (e.1, (0 : ℚ)))) = 0 := by
  intro g
  induction g with
  | nil => rfl
  | cons e t ih => rw [List.map_cons, sumVals_cons, ih]; ring

/-- Dividing every value divides the value sum. -/
theorem sumVals_map_div (c : ℚ) :
    ∀ (r : RankVec), sumVals (r.map (fun e => (e.1, e.2 / c))) = sumVals r / c := by
  intro r
  induction r with
  | nil => simp [sumVals]
  | cons e t ih => rw [List.map_cons, sumVals_cons, sumVals_cons, add_div, ih]

/-- C6. For every non-empty graph with distinct keys, damping factor, positive
sample count and entropy stream, the sampler's output sums to exactly 1: each
of the n iterations increments exactly one page's counter and the result is
each counter divided by n. -/
theorem sample_pagerank_sums_to_one (g : Corpus) (d : ℚ) (n : ℤ) (σ : ℕ → ℕ)
    (hne : g ≠ []) (hnd : (keys g).Nodup) (hn : 0 < n) :
    sumVals (sample_pagerank g d n σ) = 1 := by
  have hkne : keys g ≠ [] := fun h => hne (List.map_eq_nil_iff.mp h)
  have hp0 : pickChoice (keys g) (σ 0) ∈ keys g := pickChoice_mem _ hkne _
  have hinit : keys (g.map (fun e => (e.1, (0 : ℚ)))) = keys g := keys_map_snd g _
  simp only [sample_pagerank]
  rw [sumVals_map_div, sampleLoop_sum g d σ hnd (pyRange n) 1 _ _ hp0 hinit,
    sumVals_zeros, zero_add, pyRange]
  rw [show ((n.toNat : ℕ) : ℚ) = ((n : ℤ) : ℚ) from by
    rw [← Int.cast_natCast, Int.toNat_of_nonneg hn.le]]
  exact div_self (Int.cast_ne_zero.mpr hn.ne')

/-- Witness for the sampler sum theorem on a concrete two-page corpus. -/
theorem sample_pagerank_sums_to_one_witness :
    sinkCorpus ≠ [] ∧ (keys sinkCorpus).Nodup ∧ (0 : ℤ) < 3 ∧
      sumVals (sample_pagerank sinkCorpus DAMPING 3 (fun k => k)) = 1 :=
  ⟨by simp [sinkCorpus], by simp [keys, sinkCorpus], by norm_num,
    sample_pagerank_sums_to_one sinkCorpus DAMPING 3 (fun k => k)
      (by simp [sinkCorpus]) (by simp [keys, sinkCorpus]) (by norm_num)⟩

/-- Splitting a sum of pointwise sums. -/
theorem sum_map_add (f g : Page → ℚ) :
    ∀ (l : List Page), (l.map (fun k => f k + g k)).sum = (l.map f).sum + (l.map g).sum := by
  intro l
  induction l with
  | nil => simp
  | cons a t ih => simp only [List.map_cons, List.sum_cons, ih]; ring

/-- Summing a constant over a list. -/
theorem sum_map_const (c : ℚ) :
    ∀ (l : List Page), (l.map (fun _ => c)).sum = (l.length : ℚ) * c := by
  intro l
  induction l with
  | nil => simp
  | cons a t ih => simp only [List.map_cons, List.sum_cons, List.length_cons, ih]; push_cast; ring

/-- Pulling a constant factor out of a sum. -/
theorem sum_map_mul (f : Page → ℚ) (c : ℚ) :
    ∀ (l : List Page), (l.map (fun k => f k * c)).sum = (l.map f).sum * c := by
  intro l
  induction l with
  | nil => simp
  | cons a t ih => simp only [List.map_cons, List.sum_cons, ih]; ring

/-- The inner loop of `transition_model` (lines 67-69) adds `x` once per
occurrence of `p` in the out-set. -/
theorem foldl_count (p : Page) (x : ℚ) :
    ∀ (l : List Page) (a : ℚ),
      l.foldl (fun acc i => if p = i then acc + x else acc) a = a + (l.count p : ℚ) * x := by
  intro l
  induction l with
  | nil => intro a; simp
  | cons i t ih =>
    intro a
    rw [List.foldl_cons, List.count_cons]
    by_cases h : p = i
    · rw [if_pos h, ih]
      simp only [h, beq_self_eq_true, if_true]
      push_cast
      ring
    · rw [if_neg h, ih]
      have : (i == p) = false := beq_eq_false_iff_ne.mpr (fun hh => h hh.symm)
      simp only [this, if_false]
      push_cast
      ring

/-- A sum of a one-point indicator over a list without the point is zero. -/
theorem sum_map_indicator_zero (a : Page) :
    ∀ (l : List Page), a ∉ l → (l.map (fun k => if k = a then (1 : ℚ) else 0)).sum = 0 := by
  intro l
  induction l with
  | nil => intro _; simp
  | cons b t ih =>
    intro h
    rw [List.mem_cons, not_or] at h
    rw [List.map_cons, List.sum_cons, if_neg (fun hh => h.1 hh.symm), ih h.2]
    ring

/-- A sum of a one-point indicator over a duplicate-free list containing the
point is one. -/
theorem sum_map_indicator (a : Page) :
    ∀ (l : List Page), l.Nodup → a ∈ l →
      (l.map (fun k => if k = a then (1 : ℚ) else 0)).sum = 1 := by
  intro l
  induction l with
  | nil => intro _ h; simp at h
  | cons b t ih =>
    intro hnd ha
    rw [List.nodup_cons] at hnd
    rw [List.map_cons, List.sum_cons]
    by_cases h : b = a
    · rw [if_pos h, sum_map_indicator_zero a t (h ▸ hnd.1)]
      ring
    · have ha' : a ∈ t := by
        rcases List.mem_cons.mp ha with h1 | h2
        · exact absurd h1.symm h
        · exact h2
      rw [if_neg h, ih hnd.2 ha']
      ring

/-- Summing the multiplicities of a list's elements over a duplicate-free
list of candidates containing them counts the list's length. -/
theorem sum_counts (ks : List Page) (hk : ks.Nodup) :
    ∀ (out : List Page), (∀ q ∈ out, q ∈ ks) →
      (ks.map (fun k => (out.count k : ℚ))).sum = (out.length : ℚ) := by
  intro out
  induction out with
  | nil => intro _; simp
  | cons a t ih =>
    intro hsub
    have ha : a ∈ ks := hsub a (List.mem_cons_self a t)
    have ht : ∀ q ∈ t, q ∈ ks := fun q hq => hsub q (List.mem_cons_of_mem a hq)
    have hcount : ∀ k ∈ ks, ((a :: t).count k : ℚ)
        = (t.count k : ℚ) + (if k = a then (1 : ℚ) else 0) := by
      intro k _
      rw [List.count_cons]
      by_cases h : k = a
      · simp only [h, beq_self_eq_true, if_true]
        push_cast
        ring
      · have : (a == k) = false := beq_eq_false_iff_ne.mpr (fun hh => h hh.symm)
        simp only [this, if_false, if_neg h]
        push_cast
        ring
    rw [congrArg List.sum (List.map_congr_left hcount), sum_map_add, ih ht,
      sum_map_indicator a ks hk ha, List.length_cons]
    push_cast
    ring

/-- Closed form of `transitionWeight`: baseline plus multiplicity times the
per-link share plus the sink share. -/
theorem transitionWeight_eq (N : ℕ) (out : List Page) (d : ℚ) (p : Page) :
    transitionWeight N out d p
      = (1 - d) / (N : ℚ) + (out.count p : ℚ) * (d / (out.length : ℚ))
        + (if out.length = 0 then d / (N : ℚ) else 0) := by
  rw [transitionWeight, foldl_count]

/-- Multiplicity in a duplicate-free out-set is a membership indicator. -/
theorem count_cast_eq_indicator (out : List Page) (p : Page) (hnd : out.Nodup) :
    ((out.count p : ℕ) : ℚ) = if p ∈ out then 1 else 0 := by
  by_cases h : p ∈ out
  · rw [if_pos h, List.count_eq_one_of_mem hnd h, Nat.cast_one]
  · rw [if_neg h, List.count_eq_zero_of_not_mem h, Nat.cast_zero]

/-- Value sum of a table built by pairing each corpus key with a weight. -/
theorem sumVals_map_key (f : Page → ℚ) :
    ∀ (g : Corpus), sumVals (g.map (fun e => (e.1, f e.1))) = ((keys g).map f).sum := by
  intro g
  induction g with
  | nil => rfl
  | cons e t ih => rw [List.map_cons, sumVals_cons, keys_cons, List.map_cons, List.sum_cons, ih]

/-- C4. For every well-formed non-empty graph, page of the graph with out-set
`out`, and damping factor in (0,1), the transition model returns a table over
exactly the corpus keys that assigns `(1-d)/N` to every page, adds `d/|out|`
to the pages of a non-empty out-set, adds `d/N` to every page when the
out-set is empty, and sums to exactly 1. -/
theorem transition_model_correct
    (g : Corpus) (page : Page) (d : ℚ) (out : List Page)
    (hne : g ≠ []) (hknd : (keys g).Nodup) (hlk : lookupOut g page = some out)
    (hsub : ∀ q ∈ out, q ∈ keys g) (hond : out.Nodup)
    (hd0 : 0 < d) (hd1 : d < 1) :
    ∃ dist, transition_model g page d = some dist ∧
      keys dist = keys g ∧
      (∀ e ∈ dist,
        e.2 = (1 - d) / (g.length : ℚ)
          + (if e.1 ∈ out then d / (out.length : ℚ) else 0)
          + (if out = [] then d / (g.length : ℚ) else 0)) ∧
      sumVals dist = 1 := by
  have hN : ((g.length : ℕ) : ℚ) ≠ 0 :=
    Nat.cast_ne_zero.mpr (fun h => hne (List.length_eq_zero.mp h))
  refine ⟨g.map (fun e => (e.1, transitionWeight g.length out d e.1)), ?_, ?_, ?_, ?_⟩
  · rw [transition_model, hlk, Option.map_some']
  · exact keys_map_snd g _
  · intro e he
    obtain ⟨e0, he0, rfl⟩ := List.mem_map.mp he
    show transitionWeight g.length out d e0.1 = _
    rw [transitionWeight_eq, count_cast_eq_indicator out e0.1 hond]
    by_cases hmem : e0.1 ∈ out
    · have hout : out ≠ [] := List.ne_nil_of_mem hmem
      have hL : out.length ≠ 0 := fun h => hout (List.length_eq_zero.mp h)
      rw [if_pos hmem, if_pos hmem, if_neg hL, if_neg hout, one_mul]
    · rw [if_neg hmem, if_neg hmem, zero_mul]
      by_cases hout : out = []
      · have hL : out.length = 0 := by rw [hout]; rfl
        rw [if_pos hL, if_pos hout]
      · have hL : out.length ≠ 0 := fun h => hout (List.length_eq_zero.mp h)
        rw [if_neg hL, if_neg hout]
  · rw [sumVals_map_key]
    rw [congrArg List.sum (List.map_congr_left
      (fun k _ => transitionWeight_eq g.length out d k))]
    rw [sum_map_add (fun k => (1 - d) / (g.length : ℚ)
        + (out.count k : ℚ) * (d / (out.length : ℚ)))
      (fun _ => if out.length = 0 then d / (g.length : ℚ) else 0)]
    rw [sum_map_add (fun _ => (1 - d) / (g.length : ℚ))
      (fun k => (out.count k : ℚ) * (d / (out.length : ℚ)))]
    rw [sum_map_const, sum_map_const, sum_map_mul, sum_counts (keys g) hknd out hsub]
    have hlen : ((keys g).length : ℚ) = ((g.length : ℕ) : ℚ) := by
      rw [keys, List.length_map]
    rw [hlen]
    by_cases hout : out = []
    · subst hout
      simp only [List.length_nil, if_true]
      norm_num
      field_simp
    · have hL : ((out.length : ℕ) : ℚ) ≠ 0 :=
        Nat.cast_ne_zero.mpr (fun h => hout (List.length_eq_zero.mp h))
      rw [if_neg (fun h => hout (List.length_eq_zero.mp h))]
      field_simp

/-- Witness for the transition-model theorem on the two-page corpus at page b. -/
theorem transition_model_correct_witness :
    sinkCorpus ≠ [] ∧ lookupOut sinkCorpus "b" = some ["a"] ∧
      (0 : ℚ) < DAMPING ∧ DAMPING < 1 ∧
      (∃ dist, transition_model sinkCorpus "b" DAMPING = some dist ∧
        keys dist = keys sinkCorpus ∧
        (∀ e ∈ dist,
          e.2 = (1 - DAMPING) / (sinkCorpus.length : ℚ)
            + (if e.1 ∈ (["a"] : List Page) then DAMPING / ((["a"] : List Page).length : ℚ) else 0)
            + (if (["a"] : List Page) = [] then DAMPING / (sinkCorpus.length : ℚ) else 0)) ∧
        sumVals dist = 1) :=
  ⟨by simp [sinkCorpus], by simp [lookupOut, sinkCorpus, List.find?],
    by norm_num [DAMPING], by norm_num [DAMPING],
    transition_model_correct sinkCorpus "b" DAMPING ["a"]
      (by simp [sinkCorpus]) (by simp [keys, sinkCorpus])
      (by simp [lookupOut, sinkCorpus, List.find?])
      (by simp [keys, sinkCorpus]) (by simp)
      (by norm_num [DAMPING]) (by norm_num [DAMPING])⟩

/-- The checked inner loop never fails once the out-set is non-empty, and
computes the same fold as the unchecked one. -/
theorem linkFoldChecked_some (out : List Page) (d : ℚ) (p : Page) (hL : out.length ≠ 0) :
    ∀ (l : List Page) (acc : ℚ),
      linkFoldChecked out d p acc l
        = some (l.foldl (fun a j => if p = j then a + d / (out.length : ℚ) else a) acc) := by
  intro l
  induction l with
  | nil => intro acc; rfl
  | cons j t ih =>
    intro acc
    rw [linkFoldChecked]
    by_cases h : p = j
    · rw [if_pos h]
      rw [show qdivChecked d out.length = some (d / (out.length : ℚ)) from by
        rw [qdivChecked, if_neg hL]]
      rw [List.foldl_cons, if_pos h]
      exact ih (acc + d / (out.length : ℚ))
    · rw [if_neg h, List.foldl_cons, if_neg h]
      exact ih acc

/-- On a non-empty corpus the fully checked weight computation never hits a
division by zero and agrees with the unchecked weight. -/
theorem transitionWeightChecked_some (N : ℕ) (out : List Page) (d : ℚ) (p : Page)
    (hN : N ≠ 0) :
    transitionWeightChecked N out d p = some (transitionWeight N out d p) := by
  rw [transitionWeightChecked]
  rw [show qdivChecked (1 - d) N = some ((1 - d) / (N : ℚ)) from by
    rw [qdivChecked, if_neg hN]]
  rw [Option.some_bind]
  by_cases hout : out = []
  · subst hout
    rw [show linkFoldChecked [] d p ((1 - d) / (N : ℚ)) [] = some ((1 - d) / (N : ℚ))
      from rfl]
    rw [Option.some_bind, if_pos (show ([] : List Page).length = 0 from rfl)]
    rw [show qdivChecked d N = some (d / (N : ℚ)) from by rw [qdivChecked, if_neg hN]]
    rw [Option.map_some']
    rfl
  · have hL : out.length ≠ 0 := fun h => hout (List.length_eq_zero.mp h)
    rw [linkFoldChecked_some out d p hL out ((1 - d) / (N : ℚ)), Option.some_bind,
      if_neg hL, transitionWeight, if_neg hL, add_zero]

/-- A pointwise-successful checked map succeeds with the pointwise values. -/
theorem mapOpt_eq_map {α β : Type} (f : α → Option β) (h' : α → β) :
    ∀ (l : List α), (∀ a ∈ l, f a = some (h' a)) → mapOpt f l = some (l.map h') := by
  intro l
  induction l with
  | nil => intro _; rfl
  | cons a t ih =>
    intro h
    rw [mapOpt, h a (List.mem_cons_self a t), Option.some_bind,
      ih (fun b hb => h b (List.mem_cons_of_mem a hb)), Option.map_some']
    rfl

/-- C10. For every non-empty graph and page of the graph, the transition model
is total: the checked variant — which records any KeyError or division by
zero as `none` — succeeds and returns exactly the unchecked model's table.
Divisions by `|out|` happen only inside the loop over a non-empty out-set,
the division by `N` only for a non-empty corpus, and the only dict lookup is
on a present key. -/
theorem transition_model_total
    (g : Corpus) (page : Page) (d : ℚ)
    (hne : g ≠ []) (hclosed : ∀ e ∈ g, ∀ q ∈ e.2, q ∈ keys g)
    (hpage : page ∈ keys g) :
    ∃ dist, transition_model_checked g page d = some dist
      ∧ transition_model g page d = some dist := by
  obtain ⟨out, hlk⟩ := lookupOut_of_mem page g hpage
  have hN : g.length ≠ 0 := fun h => hne (List.length_eq_zero.mp h)
  refine ⟨g.map (fun e => (e.1, transitionWeight g.length out d e.1)), ?_, ?_⟩
  · rw [transition_model_checked, hlk, Option.some_bind]
    exact mapOpt_eq_map _ _ g (fun e _ => by
      rw [transitionWeightChecked_some g.length out d e.1 hN, Option.map_some'])
  · rw [transition_model, hlk, Option.map_some']

/-- Witness for the totality theorem at a sink page of the two-page corpus. -/
theorem transition_model_total_witness :
    sinkCorpus ≠ [] ∧ "a" ∈ keys sinkCorpus ∧
      (∃ dist, transition_model_checked sinkCorpus "a" DAMPING = some dist
        ∧ transition_model sinkCorpus "a" DAMPING = some dist) :=
  ⟨by simp [sinkCorpus], by simp [keys, sinkCorpus],
    transition_model_total sinkCorpus "a" DAMPING (by simp [sinkCorpus])
      (by
        intro e he q hq
        simp [sinkCorpus] at he
        rcases he with h1 | h2
        · rw [h1] at hq; simp at hq
        · rw [h2] at hq
          simp at hq
          subst hq
          simp [keys, sinkCorpus])
      (by simp [keys, sinkCorpus])⟩

end Pagerank
